import Mathlib

/-!
# Verification of the RSA block-cipher engine and key validity check

Shallow embedding of the block-framing / modular-exponentiation pipeline of
`src/lib/encryption.rs` and of the key-pair validity predicate of
`src/lib/key/mod.rs`.

Modelling conventions:

* Arbitrary-precision unsigned integers (`num_bigint::BigUint`) are `Nat`.
* A byte stream is a `List Nat` whose elements are `< 256` (the bound is a
  hypothesis where it matters).
* `file_in.read(&mut buf)` on a regular file is modelled as returning
  `min buf.len remaining` bytes, i.e. reads are full until the stream runs
  out; this is the behaviour the loop conditions of the source rely on.
* The streamed loops of `encrypt_file` / `decrypt_file` become fuel-based
  structural recursions over the input byte list (fuel = list length), so
  every definition reduces inside the kernel.
-/

set_option maxRecDepth 100000

namespace RsaCrypt

/-- Little-endian byte decoding: models `num_bigint::BigUint::from_bytes_le`.
The head of the list is the least significant byte. -/
def fromBytesLE : List Nat → Nat
  | [] => 0
  | b :: rest => b + 256 * fromBytesLE rest

/-- Fuel-based worker for minimal little-endian byte encoding of a natural
number; returns `[]` on `0`.  The fuel only bounds the recursion depth: any
`fuel ≥ m` computes the encoding of `m`. -/
def natToBytesLE : Nat → Nat → List Nat
  | _, 0 => []
  | 0, _ => []
  | fuel + 1, m => m % 256 :: natToBytesLE fuel (m / 256)

/-- Minimal little-endian byte encoding: models
`num_bigint::BigUint::to_bytes_le`, which returns `vec![0]` for zero and
otherwise the minimal little-endian representation (last byte nonzero). -/
def toBytesLE (m : Nat) : List Nat :=
  if m = 0 then [0] else natToBytesLE m m

/-- Fuel-based binary (square-and-multiply) modular exponentiation worker.
Any `fuel ≥ e` computes `b ^ e % n`. -/
def modpowAux : Nat → Nat → Nat → Nat → Nat
  | _, _, 0, n => 1 % n
  | 0, _, _, n => 1 % n
  | fuel + 1, b, e, n =>
    let h := modpowAux fuel b (e / 2) n
    let h2 := h * h % n
    if e % 2 = 1 then h2 * (b % n) % n else h2

/-- Models `num_bigint::BigUint::modpow` (binary modular exponentiation),
the primitive applied to each block by the engine. -/
def modpow (b e n : Nat) : Nat := modpowAux e b e n

/-- Fuel-based worker computing the bit length of a natural number.
Any `fuel ≥ m` computes the bit length of `m`. -/
def bitsAux : Nat → Nat → Nat
  | _, 0 => 0
  | 0, _ => 0
  | fuel + 1, m => bitsAux fuel (m / 2) + 1

/-- Bit length: models `num_bigint::BigUint::bits` (`0` has bit length `0`,
otherwise `⌊log₂ m⌋ + 1`). -/
def bits (m : Nat) : Nat := bitsAux m m

/-- Models `<BigUint as SizeInBytes>::size_in_bytes` from
`src/lib/encryption.rs`: `(self.bits() / 8)`. -/
def sizeInBytes (m : Nat) : Nat := bits m / 8

/-- The exact byte length of the minimal little-endian representation of a
natural number: `1` for zero, otherwise `⌈bits m / 8⌉`.  Used to state that
decryption writes exactly the true byte length of each recovered integer. -/
def byteLen (m : Nat) : Nat := if m = 0 then 1 else (bits m + 7) / 8

/-- Models `KeyVariant` from `src/lib/key/mod.rs`. -/
inductive KeyVariant where
  | PublicKey
  | PrivateKey
deriving DecidableEq

/-- Models `Key` from `src/lib/key/mod.rs`. -/
structure Key where
  exponent : Nat
  modulus : Nat
  variant : KeyVariant

/-- Models `KeyPair` from `src/lib/key/mod.rs`. -/
structure KeyPair where
  public_key : Key
  private_key : Key

/-- Modelled from the spec: `crate::math::mod_pow` (the `math` module is not
among the provided sources).  The spec's glossary describes the primitive as
"computing `base^exponent mod modulus`", and §4.1 says the validity check
uses "the same modular-exponentiation primitive used by the engine". -/
def mod_pow (base exponent modulus : Nat) : Nat := base ^ exponent % modulus

/-- Models `KeyPair::is_valid` from `src/lib/key/mod.rs`. -/
def KeyPair.is_valid (kp : KeyPair) : Bool :=
  if ¬(kp.public_key.variant = KeyVariant.PublicKey
      ∧ kp.private_key.variant = KeyVariant.PrivateKey
      ∧ kp.public_key.modulus = kp.private_key.modulus
      ∧ kp.public_key.exponent ≤ kp.public_key.modulus) then
    false
  else
    let plain_msg : Nat := 12345678
    let encoded_msg :=
      mod_pow plain_msg kp.public_key.exponent kp.public_key.modulus
    let decoded_msg :=
      mod_pow encoded_msg kp.private_key.exponent kp.private_key.modulus
    plain_msg == decoded_msg

/-- Splitting a list into consecutive chunks of `k` elements, the last chunk
possibly shorter; fuel-based worker (any `fuel ≥ l.length` suffices,
`k = 0` yields no chunks). -/
def chunksOfAux (k : Nat) : Nat → List Nat → List (List Nat)
  | _, [] => []
  | 0, _ :: _ => []
  | fuel + 1, b :: rest =>
    if k = 0 then []
    else (b :: rest).take k :: chunksOfAux k fuel ((b :: rest).drop k)

/-- Splitting a list into consecutive chunks of `k` elements, the last chunk
possibly shorter. -/
def chunksOf (k : Nat) (l : List Nat) : List (List Nat) :=
  chunksOfAux k l.length l

/-- The loop of `Key::encrypt_file` (`src/lib/encryption.rs`, lines 94-108),
one recursive call per iteration, returning the list of emitted ciphertext
blocks.  `maxRead` is `max_bytes_read`, `maxWrite` is `max_bytes_write`.
Each iteration zero-fills the `maxRead`-byte buffer, reads up to `maxRead`
bytes (`if bytes_amount_read == 0 { break }` is the `[]` case and the
`maxRead = 0` case), decodes the whole buffer little-endian, exponentiates,
re-encodes little-endian, appends `maxWrite - len` zero bytes, and writes
the block; the loop continues only while the read was full, i.e. on the
remainder `drop maxRead`. -/
def encryptBlocksAux (e n maxRead maxWrite : Nat) : Nat → List Nat → List (List Nat)
  | _, [] => []
  | 0, _ :: _ => []
  | fuel + 1, b :: rest =>
    if maxRead = 0 then []
    else
      let chunk := (b :: rest).take maxRead
      let source_bytes := chunk ++ List.replicate (maxRead - chunk.length) 0
      let message := fromBytesLE source_bytes
      let encrypted := modpow message e n
      let encoded := toBytesLE encrypted
      let destiny_bytes := encoded ++ List.replicate (maxWrite - encoded.length) 0
      destiny_bytes :: encryptBlocksAux e n maxRead maxWrite fuel ((b :: rest).drop maxRead)

/-- The ciphertext blocks emitted by `Key::encrypt_file` for public exponent
`e` and modulus `n` on the given input bytes (the key's `PublicKey` role,
asserted by the source, is a precondition and does not influence the loop). -/
def encrypt_blocks (e n : Nat) (input : List Nat) : List (List Nat) :=
  encryptBlocksAux e n (sizeInBytes n - 1) (sizeInBytes n + 1) input.length input

/-- The bytes written to the output stream by `Key::encrypt_file`:
the emitted blocks, concatenated verbatim (no header, no length prefix). -/
def encrypt_file (e n : Nat) (input : List Nat) : List Nat :=
  (encrypt_blocks e n input).flatten

/-- The loop of `Key::decrypt_file` (`src/lib/encryption.rs`, lines 125-137),
returning the list of plaintext chunks written per iteration.  Each
iteration zero-fills the `maxBytes`-byte buffer, reads up to `maxBytes`
bytes, decodes the whole buffer little-endian, exponentiates, and writes
the minimal little-endian encoding of the result with no padding. -/
def decryptBlocksAux (d n maxBytes : Nat) : Nat → List Nat → List (List Nat)
  | _, [] => []
  | 0, _ :: _ => []
  | fuel + 1, b :: rest =>
    if maxBytes = 0 then []
    else
      let chunk := (b :: rest).take maxBytes
      let source_bytes := chunk ++ List.replicate (maxBytes - chunk.length) 0
      let encrypted := fromBytesLE source_bytes
      let message := modpow encrypted d n
      toBytesLE message :: decryptBlocksAux d n maxBytes fuel ((b :: rest).drop maxBytes)

/-- The plaintext chunks written by `Key::decrypt_file` for private exponent
`d` and modulus `n` on the given input bytes. -/
def decrypt_blocks (d n : Nat) (input : List Nat) : List (List Nat) :=
  decryptBlocksAux d n (sizeInBytes n + 1) input.length input

/-- The bytes written to the output stream by `Key::decrypt_file`:
the written chunks, concatenated. -/
def decrypt_file (d n : Nat) (input : List Nat) : List Nat :=
  (decrypt_blocks d n input).flatten

/-- The ciphertext block `encrypt_file` produces from one plaintext chunk:
decode the zero-padded `maxRead`-byte buffer, exponentiate, re-encode, and
zero-pad the encoding up to `maxWrite` bytes. -/
def encBlock (e n maxRead maxWrite : Nat) (c : List Nat) : List Nat :=
  let encoded :=
    toBytesLE (modpow (fromBytesLE (c ++ List.replicate (maxRead - c.length) 0)) e n)
  encoded ++ List.replicate (maxWrite - encoded.length) 0

/-- The plaintext chunk `decrypt_file` writes for one ciphertext block:
decode the zero-padded `maxBytes`-byte buffer, exponentiate, and write the
minimal encoding with no padding. -/
def decChunk (d n maxBytes : Nat) (c : List Nat) : List Nat :=
  toBytesLE (modpow (fromBytesLE (c ++ List.replicate (maxBytes - c.length) 0)) d n)

/-! ## Little-endian encoding lemmas -/

theorem fromBytesLE_replicate_zero (k : Nat) :
    fromBytesLE (List.replicate k 0) = 0 := by
  induction k with
  | zero => rfl
  | succ k ih => simpa [List.replicate_succ, fromBytesLE] using ih

theorem fromBytesLE_append_zeros (c : List Nat) (k : Nat) :
    fromBytesLE (c ++ List.replicate k 0) = fromBytesLE c := by
  induction c with
  | nil => simpa [fromBytesLE] using fromBytesLE_replicate_zero k
  | cons b rest ih => simp [fromBytesLE, ih]

theorem fromBytesLE_lt (c : List Nat) (hc : ∀ b ∈ c, b < 256) :
    fromBytesLE c < 256 ^ c.length := by
  induction c with
  | nil => simp [fromBytesLE]
  | cons b rest ih =>
    have hb : b < 256 := hc b (by simp)
    have hr : fromBytesLE rest < 256 ^ rest.length :=
      ih (fun x hx => hc x (by simp [hx]))
    have hstep : fromBytesLE (b :: rest) = b + 256 * fromBytesLE rest := rfl
    rw [hstep, List.length_cons, pow_succ]
    omega

theorem natToBytesLE_zero (fuel : Nat) : natToBytesLE fuel 0 = [] := by
  cases fuel <;> rfl

theorem natToBytesLE_succ (fuel m : Nat) (hm : m ≠ 0) :
    natToBytesLE (fuel + 1) m = m % 256 :: natToBytesLE fuel (m / 256) := by
  cases m with
  | zero => exact absurd rfl hm
  | succ m => rfl

theorem natToBytesLE_ne_nil (fuel m : Nat) (hm : m ≤ fuel) (h1 : 1 ≤ m) :
    natToBytesLE fuel m ≠ [] := by
  cases fuel with
  | zero => omega
  | succ fuel => rw [natToBytesLE_succ fuel m (by omega)]; simp

theorem fromBytesLE_natToBytesLE (fuel : Nat) :
    ∀ m, m ≤ fuel → fromBytesLE (natToBytesLE fuel m) = m := by
  induction fuel with
  | zero =>
    intro m hm
    have hm0 : m = 0 := by omega
    subst hm0
    rfl
  | succ fuel ih =>
    intro m hm
    rcases Nat.eq_zero_or_pos m with h0 | h1
    · subst h0; simp [natToBytesLE_zero, fromBytesLE]
    · rw [natToBytesLE_succ fuel m (by omega), fromBytesLE,
        ih (m / 256) (by omega)]
      omega

theorem natToBytesLE_length_le (fuel : Nat) :
    ∀ m k, m ≤ fuel → m < 256 ^ k → (natToBytesLE fuel m).length ≤ k := by
  induction fuel with
  | zero =>
    intro m k hm _
    have hm0 : m = 0 := by omega
    subst hm0
    simp [natToBytesLE_zero]
  | succ fuel ih =>
    intro m k hm hk
    rcases Nat.eq_zero_or_pos m with h0 | h1
    · subst h0; simp [natToBytesLE_zero]
    · have hkpos : 0 < k := by
        rcases Nat.eq_zero_or_pos k with hk0 | hk0
        · subst hk0; simp at hk; omega
        · exact hk0
      rw [natToBytesLE_succ fuel m (by omega)]
      have hdiv : m / 256 < 256 ^ (k - 1) := by
        have hpow : 256 ^ k = 256 ^ (k - 1) * 256 := by
          conv_lhs => rw [show k = (k - 1) + 1 by omega]
          rw [pow_succ]
        exact Nat.div_lt_of_lt_mul (by omega)
      have htail := ih (m / 256) (k - 1) (by omega) hdiv
      simp only [List.length_cons]
      omega

theorem natToBytesLE_lt (fuel : Nat) :
    ∀ m, m ≤ fuel → m < 256 ^ (natToBytesLE fuel m).length := by
  induction fuel with
  | zero =>
    intro m hm
    have hm0 : m = 0 := by omega
    subst hm0
    simp [natToBytesLE_zero]
  | succ fuel ih =>
    intro m hm
    rcases Nat.eq_zero_or_pos m with h0 | h1
    · subst h0; simp [natToBytesLE_zero]
    · rw [natToBytesLE_succ fuel m (by omega)]
      have h2 := ih (m / 256) (by omega)
      simp only [List.length_cons, pow_succ]
      omega

theorem natToBytesLE_le (fuel : Nat) :
    ∀ m, m ≤ fuel → 1 ≤ m → 256 ^ ((natToBytesLE fuel m).length - 1) ≤ m := by
  induction fuel with
  | zero => intro m hm h1; omega
  | succ fuel ih =>
    intro m hm h1
    rw [natToBytesLE_succ fuel m (by omega)]
    rcases Nat.lt_or_ge m 256 with hs | hs
    · have hq : m / 256 = 0 := Nat.div_eq_of_lt hs
      rw [hq, natToBytesLE_zero]
      simpa using h1
    · have hq : 1 ≤ m / 256 := by omega
      have h2 := ih (m / 256) (by omega) hq
      have hlen : 0 < (natToBytesLE fuel (m / 256)).length :=
        List.length_pos.mpr (natToBytesLE_ne_nil fuel (m / 256) (by omega) hq)
      simp only [List.length_cons, Nat.add_sub_cancel]
      calc 256 ^ (natToBytesLE fuel (m / 256)).length
          = 256 ^ (((natToBytesLE fuel (m / 256)).length - 1) + 1) := by
            congr 1; omega
        _ = 256 ^ ((natToBytesLE fuel (m / 256)).length - 1) * 256 := pow_succ 256 _
        _ ≤ m / 256 * 256 := Nat.mul_le_mul_right 256 h2
        _ ≤ m := by omega

theorem fromBytesLE_toBytesLE (m : Nat) : fromBytesLE (toBytesLE m) = m := by
  unfold toBytesLE
  split
  · simp_all [fromBytesLE]
  · exact fromBytesLE_natToBytesLE m m le_rfl

theorem toBytesLE_length_le (m k : Nat) (hk : 1 ≤ k) (hm : m < 256 ^ k) :
    (toBytesLE m).length ≤ k := by
  unfold toBytesLE
  split
  · simpa using hk
  · exact natToBytesLE_length_le m m k le_rfl hm

/-! ## Bit-length lemmas -/

theorem bitsAux_zero (fuel : Nat) : bitsAux fuel 0 = 0 := by cases fuel <;> rfl

theorem bitsAux_succ (fuel m : Nat) (hm : m ≠ 0) :
    bitsAux (fuel + 1) m = bitsAux fuel (m / 2) + 1 := by
  cases m with
  | zero => exact absurd rfl hm
  | succ m => rfl

theorem bitsAux_lt (fuel : Nat) : ∀ m, m ≤ fuel → m < 2 ^ bitsAux fuel m := by
  induction fuel with
  | zero =>
    intro m hm
    have hm0 : m = 0 := by omega
    subst hm0
    simp [bitsAux_zero]
  | succ fuel ih =>
    intro m hm
    rcases Nat.eq_zero_or_pos m with h0 | h1
    · subst h0; simp [bitsAux_zero]
    · rw [bitsAux_succ fuel m (by omega)]
      have h2 := ih (m / 2) (by omega)
      rw [pow_succ]
      omega

theorem bitsAux_le (fuel : Nat) :
    ∀ m, m ≤ fuel → 1 ≤ m → 2 ^ (bitsAux fuel m - 1) ≤ m := by
  induction fuel with
  | zero => intro m hm h1; omega
  | succ fuel ih =>
    intro m hm h1
    rw [bitsAux_succ fuel m (by omega)]
    rcases Nat.lt_or_ge m 2 with hs | hs
    · have hm1 : m = 1 := by omega
      subst hm1
      simp [bitsAux_zero]
    · have hq : 1 ≤ m / 2 := by omega
      have h2 := ih (m / 2) (by omega) hq
      have hlen : 0 < bitsAux fuel (m / 2) := by
        cases fuel with
        | zero => omega
        | succ fuel2 => rw [bitsAux_succ fuel2 (m / 2) (by omega)]; omega
      simp only [Nat.add_sub_cancel]
      calc 2 ^ bitsAux fuel (m / 2)
          = 2 ^ ((bitsAux fuel (m / 2) - 1) + 1) := by congr 1; omega
        _ = 2 ^ (bitsAux fuel (m / 2) - 1) * 2 := pow_succ 2 _
        _ ≤ m / 2 * 2 := Nat.mul_le_mul_right 2 h2
        _ ≤ m := by omega

theorem bits_lt (m : Nat) : m < 2 ^ bits m := bitsAux_lt m m le_rfl

theorem bits_le (m : Nat) (h1 : 1 ≤ m) : 2 ^ (bits m - 1) ≤ m :=
  bitsAux_le m m le_rfl h1

theorem bits_pos (m : Nat) (h1 : 1 ≤ m) : 0 < bits m := by
  by_contra h
  push_neg at h
  have hb : bits m = 0 := by omega
  have := bits_lt m
  rw [hb] at this
  simp at this
  omega

theorem byteLen_pos (m : Nat) : 0 < byteLen m := by
  unfold byteLen
  split
  · omega
  · have h1 : 1 ≤ m := by omega
    have := bits_pos m h1
    omega

theorem pow_length_unique {a b m : Nat} (ha : 0 < a) (hb : 0 < b)
    (ha1 : 256 ^ (a - 1) ≤ m) (ha2 : m < 256 ^ a)
    (hb1 : 256 ^ (b - 1) ≤ m) (hb2 : m < 256 ^ b) : a = b := by
  by_contra h
  rcases Nat.lt_or_ge a b with hab | hab
  · have : (256 : Nat) ^ a ≤ 256 ^ (b - 1) :=
      Nat.pow_le_pow_right (by omega) (by omega)
    omega
  · have hba : b < a := by omega
    have : (256 : Nat) ^ b ≤ 256 ^ (a - 1) :=
      Nat.pow_le_pow_right (by omega) (by omega)
    omega

theorem byteLen_bounds (m : Nat) (h1 : 1 ≤ m) :
    256 ^ (byteLen m - 1) ≤ m ∧ m < 256 ^ byteLen m := by
  unfold byteLen
  rw [if_neg (by omega)]
  have hbp := bits_pos m h1
  constructor
  · calc 256 ^ ((bits m + 7) / 8 - 1)
        = 2 ^ (8 * ((bits m + 7) / 8 - 1)) := by
          rw [show (256 : Nat) = 2 ^ 8 by norm_num, ← pow_mul]
      _ ≤ 2 ^ (bits m - 1) := Nat.pow_le_pow_right (by omega) (by omega)
      _ ≤ m := bits_le m h1
  · calc m < 2 ^ bits m := bits_lt m
      _ ≤ 2 ^ (8 * ((bits m + 7) / 8)) := Nat.pow_le_pow_right (by omega) (by omega)
      _ = 256 ^ ((bits m + 7) / 8) := by
          rw [show (256 : Nat) = 2 ^ 8 by norm_num, ← pow_mul]

theorem toBytesLE_length_eq (m : Nat) : (toBytesLE m).length = byteLen m := by
  unfold toBytesLE
  split
  · next h0 => subst h0; simp [byteLen]
  · next h0 =>
    have h1 : 1 ≤ m := by omega
    have e1 := natToBytesLE_le m m le_rfl h1
    have e2 := natToBytesLE_lt m m le_rfl
    have hlp : 0 < (natToBytesLE m m).length :=
      List.length_pos.mpr (natToBytesLE_ne_nil m m le_rfl h1)
    have hb := byteLen_bounds m h1
    exact pow_length_unique hlp (byteLen_pos m) e1 e2 hb.1 hb.2

/-! ## Modular exponentiation lemmas -/

theorem modpowAux_eq (fuel : Nat) :
    ∀ b e n, e ≤ fuel → modpowAux fuel b e n = b ^ e % n := by
  induction fuel with
  | zero =>
    intro b e n he
    have he0 : e = 0 := by omega
    subst he0
    show 1 % n = b ^ 0 % n
    rw [pow_zero]
  | succ fuel ih =>
    intro b e n he
    rcases Nat.eq_zero_or_pos e with h0 | h1
    · subst h0
      show 1 % n = b ^ 0 % n
      rw [pow_zero]
    · have hstep : modpowAux (fuel + 1) b e n =
        (if e % 2 = 1
         then modpowAux fuel b (e / 2) n * modpowAux fuel b (e / 2) n % n * (b % n) % n
         else modpowAux fuel b (e / 2) n * modpowAux fuel b (e / 2) n % n) := by
        cases e with
        | zero => omega
        | succ e2 => rfl
      rw [hstep, ih b (e / 2) n (by omega)]
      have hxx : b ^ (e / 2) % n * (b ^ (e / 2) % n) % n =
          b ^ (e / 2) * b ^ (e / 2) % n := (Nat.mul_mod _ _ _).symm
      by_cases hpar : e % 2 = 1
      · rw [if_pos hpar, hxx, ← Nat.mul_mod, ← pow_add, ← pow_succ,
          show e / 2 + e / 2 + 1 = e by omega]
      · rw [if_neg hpar, hxx, ← pow_add, show e / 2 + e / 2 = e by omega]

theorem modpow_eq (b e n : Nat) : modpow b e n = b ^ e % n :=
  modpowAux_eq e b e n le_rfl

theorem modpow_lt (b e n : Nat) (hn : 0 < n) : modpow b e n < n := by
  rw [modpow_eq]
  exact Nat.mod_lt _ hn

/-! ## Chunk-splitting lemmas -/

theorem chunksOfAux_nil (k fuel : Nat) : chunksOfAux k fuel [] = [] := by
  cases fuel <;> rfl

theorem chunksOfAux_zero_fuel (k : Nat) (l : List Nat) : chunksOfAux k 0 l = [] := by
  cases l <;> rfl

theorem chunksOfAux_cons (k fuel : Nat) (b : Nat) (rest : List Nat) (hk : k ≠ 0) :
    chunksOfAux k (fuel + 1) (b :: rest) =
      (b :: rest).take k :: chunksOfAux k fuel ((b :: rest).drop k) := by
  simp [chunksOfAux, hk]

theorem chunksOfAux_fuel (k : Nat) :
    ∀ fuel1 fuel2 l, l.length ≤ fuel1 → l.length ≤ fuel2 →
      chunksOfAux k fuel1 l = chunksOfAux k fuel2 l := by
  intro fuel1
  induction fuel1 with
  | zero =>
    intro fuel2 l h1 _
    have hl : l = [] := by
      cases l with
      | nil => rfl
      | cons b rest => simp at h1
    subst hl
    rw [chunksOfAux_zero_fuel, chunksOfAux_nil]
  | succ fuel ih =>
    intro fuel2 l h1 h2
    cases l with
    | nil => rw [chunksOfAux_nil, chunksOfAux_nil]
    | cons b rest =>
      cases fuel2 with
      | zero => simp at h2
      | succ fuel2 =>
        rcases Nat.eq_zero_or_pos k with hk | hk
        · subst hk; simp [chunksOfAux]
        · rw [chunksOfAux_cons k fuel b rest (by omega),
            chunksOfAux_cons k fuel2 b rest (by omega)]
          congr 1
          apply ih
          · rw [List.length_drop]
            simp only [List.length_cons] at h1 ⊢
            omega
          · rw [List.length_drop]
            simp only [List.length_cons] at h2 ⊢
            omega

theorem chunksOfAux_flatten (k : Nat) (hk : 0 < k) :
    ∀ fuel l, l.length ≤ fuel → (chunksOfAux k fuel l).flatten = l := by
  intro fuel
  induction fuel with
  | zero =>
    intro l h
    cases l with
    | nil => rw [chunksOfAux_nil]; rfl
    | cons b rest => simp at h
  | succ fuel ih =>
    intro l h
    cases l with
    | nil => rw [chunksOfAux_nil]; rfl
    | cons b rest =>
      rw [chunksOfAux_cons k fuel b rest (by omega), List.flatten_cons,
        ih _ (by rw [List.length_drop]; simp only [List.length_cons] at h ⊢; omega)]
      exact List.take_append_drop k (b :: rest)

theorem chunksOfAux_mem (k : Nat) :
    ∀ fuel l c, c ∈ chunksOfAux k fuel l →
      c.length ≤ k ∧ c ≠ [] ∧ ∀ b ∈ c, b ∈ l := by
  intro fuel
  induction fuel with
  | zero => intro l c hc; rw [chunksOfAux_zero_fuel] at hc; simp at hc
  | succ fuel ih =>
    intro l c hc
    cases l with
    | nil => rw [chunksOfAux_nil] at hc; simp at hc
    | cons b rest =>
      rcases Nat.eq_zero_or_pos k with hk | hk
      · subst hk; simp [chunksOfAux] at hc
      · rw [chunksOfAux_cons k fuel b rest (by omega)] at hc
        rcases List.mem_cons.mp hc with hc1 | hc2
        · subst hc1
          refine ⟨?_, ?_, ?_⟩
          · rw [List.length_take]; omega
          · cases k with
            | zero => omega
            | succ k2 => simp [List.take_succ_cons]
          · intro x hx; exact List.mem_of_mem_take hx
        · obtain ⟨m1, m2, m3⟩ := ih _ _ hc2
          exact ⟨m1, m2, fun x hx => List.mem_of_mem_drop (m3 x hx)⟩

theorem chunksOfAux_length (k : Nat) (hk : 0 < k) :
    ∀ fuel l, l.length ≤ fuel →
      (chunksOfAux k fuel l).length = (l.length + k - 1) / k := by
  intro fuel
  induction fuel with
  | zero =>
    intro l h
    cases l with
    | nil =>
      rw [chunksOfAux_nil]
      simp only [List.length_nil]
      rw [Nat.div_eq_of_lt (by omega)]
    | cons b rest => simp at h
  | succ fuel ih =>
    intro l h
    cases l with
    | nil =>
      rw [chunksOfAux_nil]
      simp only [List.length_nil]
      rw [Nat.div_eq_of_lt (by omega)]
    | cons b rest =>
      rw [chunksOfAux_cons k fuel b rest (by omega), List.length_cons,
        ih _ (by rw [List.length_drop]; simp only [List.length_cons] at h ⊢; omega),
        List.length_drop]
      simp only [List.length_cons]
      rcases Nat.lt_or_ge (rest.length + 1) (k + 1) with hle | hgt
      · have hz : rest.length + 1 - k = 0 := by omega
        have hone : (rest.length + 1 + k - 1) / k = 1 :=
          Nat.div_eq_of_lt_le (by omega) (by omega)
        rw [hz, Nat.div_eq_of_lt (by omega), hone]
      · have e1 : rest.length + 1 - k + k - 1 = rest.length := by omega
        have e2 : rest.length + 1 + k - 1 = rest.length + k := by omega
        rw [e1, e2, Nat.add_div_right _ hk]

theorem chunksOfAux_flatten_blocks (k : Nat) (hk : 0 < k) :
    ∀ (L : List (List Nat)) (fuel : Nat), L.flatten.length ≤ fuel →
      (∀ c ∈ L, c.length = k) → chunksOfAux k fuel L.flatten = L := by
  intro L
  induction L with
  | nil => intro fuel _ _; rw [List.flatten_nil, chunksOfAux_nil]
  | cons c L ih =>
    intro fuel h hc
    have hck : c.length = k := hc c (by simp)
    cases c with
    | nil => simp at hck; omega
    | cons b cb =>
      rw [List.flatten_cons] at h ⊢
      rw [List.cons_append] at h ⊢
      cases fuel with
      | zero => simp at h
      | succ fuel =>
        rw [chunksOfAux_cons k fuel b (cb ++ L.flatten) (by omega),
          ← List.cons_append, List.take_left' hck, List.drop_left' hck]
        congr 1
        apply ih fuel ?_ (fun x hx => hc x (by simp [hx]))
        simp only [List.length_cons] at hck
        simp only [List.length_cons, List.length_append] at h
        omega

theorem chunksOf_flatten (k : Nat) (hk : 0 < k) (l : List Nat) :
    (chunksOf k l).flatten = l :=
  chunksOfAux_flatten k hk l.length l le_rfl

theorem chunksOf_mem (k : Nat) (l : List Nat) (c : List Nat) (hc : c ∈ chunksOf k l) :
    c.length ≤ k ∧ c ≠ [] ∧ ∀ b ∈ c, b ∈ l :=
  chunksOfAux_mem k l.length l c hc

theorem chunksOf_length (k : Nat) (hk : 0 < k) (l : List Nat) :
    (chunksOf k l).length = (l.length + k - 1) / k :=
  chunksOfAux_length k hk l.length l le_rfl

theorem chunksOf_flatten_blocks (k : Nat) (hk : 0 < k) (L : List (List Nat))
    (hc : ∀ c ∈ L, c.length = k) : chunksOf k L.flatten = L :=
  chunksOfAux_flatten_blocks k hk L L.flatten.length le_rfl hc

/-! ## Engine structure lemmas -/

theorem encryptBlocksAux_eq_map (e n maxRead maxWrite : Nat) :
    ∀ fuel l, encryptBlocksAux e n maxRead maxWrite fuel l =
      (chunksOfAux maxRead fuel l).map (encBlock e n maxRead maxWrite) := by
  intro fuel
  induction fuel with
  | zero => intro l; cases l <;> rfl
  | succ fuel ih =>
    intro l
    cases l with
    | nil => rfl
    | cons b rest =>
      by_cases hmr : maxRead = 0
      · simp [encryptBlocksAux, chunksOfAux, hmr]
      · simp only [encryptBlocksAux, chunksOfAux, if_neg hmr, List.map_cons]
        rw [ih]
        rfl

theorem decryptBlocksAux_eq_map (d n maxBytes : Nat) :
    ∀ fuel l, decryptBlocksAux d n maxBytes fuel l =
      (chunksOfAux maxBytes fuel l).map (decChunk d n maxBytes) := by
  intro fuel
  induction fuel with
  | zero => intro l; cases l <;> rfl
  | succ fuel ih =>
    intro l
    cases l with
    | nil => rfl
    | cons b rest =>
      by_cases hmb : maxBytes = 0
      · simp [decryptBlocksAux, chunksOfAux, hmb]
      · simp only [decryptBlocksAux, chunksOfAux, if_neg hmb, List.map_cons]
        rw [ih]
        rfl

theorem encrypt_blocks_eq_map (e n : Nat) (input : List Nat) :
    encrypt_blocks e n input =
      (chunksOf (sizeInBytes n - 1) input).map
        (encBlock e n (sizeInBytes n - 1) (sizeInBytes n + 1)) :=
  encryptBlocksAux_eq_map e n _ _ input.length input

theorem decrypt_blocks_eq_map (d n : Nat) (input : List Nat) :
    decrypt_blocks d n input =
      (chunksOf (sizeInBytes n + 1) input).map (decChunk d n (sizeInBytes n + 1)) :=
  decryptBlocksAux_eq_map d n _ input.length input

theorem sizeInBytes_pos_modulus (n : Nat) (hS : 1 ≤ sizeInBytes n) : 0 < n := by
  rcases Nat.eq_zero_or_pos n with h0 | h1
  · subst h0; exact absurd hS (by decide)
  · exact h1

theorem modulus_lt_pow (n : Nat) : n < 256 ^ (sizeInBytes n + 1) := by
  calc n < 2 ^ bits n := bits_lt n
    _ ≤ 2 ^ (8 * (sizeInBytes n + 1)) := by
        apply Nat.pow_le_pow_right (by omega)
        unfold sizeInBytes
        omega
    _ = 256 ^ (sizeInBytes n + 1) := by
        rw [show (256 : Nat) = 2 ^ 8 by norm_num, ← pow_mul]

theorem encBlock_length (e n maxRead : Nat) (c : List Nat) (hS : 1 ≤ sizeInBytes n) :
    (encBlock e n maxRead (sizeInBytes n + 1) c).length = sizeInBytes n + 1 := by
  have hn : 0 < n := sizeInBytes_pos_modulus n hS
  have henc := modpow_lt (fromBytesLE (c ++ List.replicate (maxRead - c.length) 0)) e n hn
  have hlen :
      (toBytesLE (modpow (fromBytesLE (c ++ List.replicate (maxRead - c.length) 0)) e n)).length
        ≤ sizeInBytes n + 1 :=
    toBytesLE_length_le _ _ (by omega) (lt_trans henc (modulus_lt_pow n))
  unfold encBlock
  rw [List.length_append, List.length_replicate]
  omega

theorem map_id_of_mem {α : Type} {f : α → α} :
    ∀ l : List α, (∀ x ∈ l, f x = x) → l.map f = l := by
  intro l
  induction l with
  | nil => intro _; rfl
  | cons a l ih =>
    intro h
    rw [List.map_cons, h a (by simp), ih (fun x hx => h x (by simp [hx]))]

/-! ## Validity predicate lemmas -/

theorem is_valid_true_iff (kp : KeyPair) :
    kp.is_valid = true ↔
      (kp.public_key.variant = KeyVariant.PublicKey ∧
       kp.private_key.variant = KeyVariant.PrivateKey ∧
       kp.public_key.modulus = kp.private_key.modulus ∧
       kp.public_key.exponent ≤ kp.public_key.modulus ∧
       modpow (modpow 12345678 kp.public_key.exponent kp.public_key.modulus)
         kp.private_key.exponent kp.private_key.modulus = 12345678) := by
  unfold KeyPair.is_valid
  split
  · next h =>
    simp only [Bool.false_eq_true, false_iff]
    intro hcon
    exact h ⟨hcon.1, hcon.2.1, hcon.2.2.1, hcon.2.2.2.1⟩
  · next h =>
    rw [not_not] at h
    obtain ⟨h1, h2, h3, h4⟩ := h
    simp only [beq_iff_eq, mod_pow, modpow_eq]
    constructor
    · intro heq
      exact ⟨h1, h2, h3, h4, heq.symm⟩
    · intro hcon
      exact hcon.2.2.2.2.symm

theorem is_valid_modulus_large (kp : KeyPair) (h : kp.is_valid = true) :
    12345678 < kp.public_key.modulus := by
  obtain ⟨_, _, hmod, hle, hinv⟩ := (is_valid_true_iff kp).mp h
  rw [← hmod] at hinv
  rcases Nat.eq_zero_or_pos kp.public_key.modulus with h0 | h1
  · exfalso
    have he0 : kp.public_key.exponent = 0 := by omega
    rw [h0, he0, modpow_eq, modpow_eq] at hinv
    simp [pow_zero, Nat.mod_zero, one_pow] at hinv
  · have := modpow_lt (modpow 12345678 kp.public_key.exponent kp.public_key.modulus)
      kp.private_key.exponent kp.public_key.modulus h1
    omega

theorem is_valid_sizeInBytes (kp : KeyPair) (h : kp.is_valid = true) :
    3 ≤ sizeInBytes kp.public_key.modulus := by
  have hlarge := is_valid_modulus_large kp h
  by_contra hs
  push_neg at hs
  have hb : bits kp.public_key.modulus ≤ 23 := by
    unfold sizeInBytes at hs
    omega
  have h1 := bits_lt kp.public_key.modulus
  have h2 : kp.public_key.modulus < 2 ^ 23 :=
    lt_of_lt_of_le h1 (Nat.pow_le_pow_right (by omega) hb)
  have h3 : (2 : Nat) ^ 23 = 8388608 := by norm_num
  omega

/-! ## Round-trip lemmas -/

theorem decChunk_encBlock (e d n : Nat) (c : List Nat)
    (hinv : modpow (modpow (fromBytesLE c) e n) d n = fromBytesLE c)
    (hre : toBytesLE (fromBytesLE c) = c) :
    decChunk d n (sizeInBytes n + 1)
      (encBlock e n (sizeInBytes n - 1) (sizeInBytes n + 1) c) = c := by
  simp only [encBlock, decChunk]
  rw [fromBytesLE_append_zeros c, List.append_assoc, ← List.replicate_add,
    fromBytesLE_append_zeros, fromBytesLE_toBytesLE, hinv, hre]

theorem round_trip_core (e d n : Nat) (input : List Nat)
    (hS : 1 ≤ sizeInBytes n) (hR : 1 ≤ sizeInBytes n - 1)
    (hinv : ∀ c ∈ chunksOf (sizeInBytes n - 1) input,
      modpow (modpow (fromBytesLE c) e n) d n = fromBytesLE c)
    (hre : ∀ c ∈ chunksOf (sizeInBytes n - 1) input,
      toBytesLE (fromBytesLE c) = c) :
    decrypt_file d n (encrypt_file e n input) = input := by
  unfold decrypt_file encrypt_file
  rw [encrypt_blocks_eq_map, decrypt_blocks_eq_map]
  rw [chunksOf_flatten_blocks (sizeInBytes n + 1) (by omega) _ ?hlen]
  case hlen =>
    intro bl hbl
    rcases List.mem_map.mp hbl with ⟨c, _, rfl⟩
    exact encBlock_length e n _ c hS
  rw [List.map_map]
  rw [map_id_of_mem _ (fun c hc => by
    simpa [Function.comp] using decChunk_encBlock e d n c (hinv c hc) (hre c hc))]
  exact chunksOf_flatten _ (by omega) input

/-! ## Claims -/

/-- C1 (counterexample): the universal round-trip property fails on the code.
The reference key pair satisfies the validity predicate, yet the two-byte
input `[1, 0]` does not come back from an encrypt/decrypt round trip: the
decrypt side writes the minimal little-endian encoding of each recovered
integer, dropping the trailing zero byte.  Moreover the pair
`(n, e, d) = (12345679, 3, 1)` also satisfies the validity predicate
(12345678 ≡ −1 (mod n), so the fixed test value round-trips) while the input
`[2]` comes back as `[8]`: the predicate tests only the single value
12345678 and does not guarantee decryption inverts encryption. -/
theorem round_trip_counterexample :
    (KeyPair.is_valid ⟨⟨65537, 2523461377, KeyVariant.PublicKey⟩,
        ⟨343637873, 2523461377, KeyVariant.PrivateKey⟩⟩ = true ∧
      decrypt_file 343637873 2523461377
        (encrypt_file 65537 2523461377 [1, 0]) ≠ [1, 0]) ∧
    (KeyPair.is_valid ⟨⟨3, 12345679, KeyVariant.PublicKey⟩,
        ⟨1, 12345679, KeyVariant.PrivateKey⟩⟩ = true ∧
      decrypt_file 1 12345679 (encrypt_file 3 12345679 [2]) ≠ [2]) := by
  refine ⟨⟨?_, by decide⟩, ?_, by decide⟩
  · exact (is_valid_true_iff _).mpr ⟨rfl, rfl, rfl, by decide, by decide⟩
  · exact (is_valid_true_iff _).mpr ⟨rfl, rfl, rfl, by decide, by decide⟩

/-- C1 (amended): for every key pair satisfying the validity predicate that
moreover inverts encryption on each block value of the input (the predicate
alone only tests the value 12345678), and every byte input each of whose
`R`-byte chunks re-encodes to itself (equivalently: ends in a nonzero byte,
or is the single byte 0 — minimal re-encoding drops trailing zero bytes),
decrypting the encryption reproduces the input byte-for-byte; the empty
input yields empty output with zero blocks emitted. -/
theorem round_trip_amended (kp : KeyPair) (input : List Nat)
    (hvalid : kp.is_valid = true)
    (hinv : ∀ c ∈ chunksOf (sizeInBytes kp.public_key.modulus - 1) input,
      modpow (modpow (fromBytesLE c) kp.public_key.exponent kp.public_key.modulus)
        kp.private_key.exponent kp.public_key.modulus = fromBytesLE c)
    (hre : ∀ c ∈ chunksOf (sizeInBytes kp.public_key.modulus - 1) input,
      toBytesLE (fromBytesLE c) = c) :
    decrypt_file kp.private_key.exponent kp.private_key.modulus
        (encrypt_file kp.public_key.exponent kp.public_key.modulus input) = input ∧
    encrypt_blocks kp.public_key.exponent kp.public_key.modulus ([] : List Nat) = [] := by
  have hmod := ((is_valid_true_iff kp).mp hvalid).2.2.1
  have hS3 := is_valid_sizeInBytes kp hvalid
  constructor
  · rw [← hmod]
    exact round_trip_core _ _ _ input (by omega) (by omega) hinv hre
  · rfl

theorem round_trip_amended_witness :
    decrypt_file 343637873 2523461377
        (encrypt_file 65537 2523461377 [76, 111]) = [76, 111] ∧
    encrypt_blocks 65537 2523461377 ([] : List Nat) = [] :=
  round_trip_amended
    ⟨⟨65537, 2523461377, KeyVariant.PublicKey⟩,
      ⟨343637873, 2523461377, KeyVariant.PrivateKey⟩⟩
    [76, 111]
    ((is_valid_true_iff _).mpr ⟨rfl, rfl, rfl, by decide, by decide⟩)
    (by decide) (by decide)

/-- C2: `KeyPair.is_valid` is a total boolean function of the key pair's
values; it returns true exactly when the role tags sit in their slots, the
two moduli agree bit-for-bit, the public exponent does not exceed the
modulus, and the fixed test value 12345678, pushed through
`mod_pow` under the public then the private key, comes back unchanged —
in particular it returns false whenever any of the three structural checks
fails. -/
theorem is_valid_spec (kp : KeyPair) :
    kp.is_valid = true ↔
      (kp.public_key.variant = KeyVariant.PublicKey ∧
       kp.private_key.variant = KeyVariant.PrivateKey ∧
       kp.public_key.modulus = kp.private_key.modulus ∧
       kp.public_key.exponent ≤ kp.public_key.modulus ∧
       mod_pow (mod_pow 12345678 kp.public_key.exponent kp.public_key.modulus)
         kp.private_key.exponent kp.private_key.modulus = 12345678) := by
  rw [is_valid_true_iff]
  simp only [mod_pow, modpow_eq]

/-- C3: for every key with `S(n) ≥ 1` and every input, the emitted
ciphertext output is exactly one block per plaintext chunk, each block the
little-endian encoding of the encrypted chunk value zero-padded on the
high-order side up to exactly `S(n) + 1` bytes, and written verbatim; in
particular every emitted block has exactly `S(n) + 1` bytes. -/
theorem encrypt_block_width (e n : Nat) (input : List Nat)
    (hS : 1 ≤ sizeInBytes n) :
    encrypt_blocks e n input =
      (chunksOf (sizeInBytes n - 1) input).map
        (encBlock e n (sizeInBytes n - 1) (sizeInBytes n + 1)) ∧
    ∀ bl ∈ encrypt_blocks e n input, bl.length = sizeInBytes n + 1 := by
  refine ⟨encrypt_blocks_eq_map e n input, ?_⟩
  intro bl hbl
  rw [encrypt_blocks_eq_map] at hbl
  rcases List.mem_map.mp hbl with ⟨c, _, rfl⟩
  exact encBlock_length e n _ c hS

theorem encrypt_block_width_witness :
    ([1, 0, 0, 0, 0] : List Nat).length = sizeInBytes 2523461377 + 1 :=
  (encrypt_block_width 65537 2523461377 [1] (by decide)).2 [1, 0, 0, 0, 0] (by decide)

/-- C4: the byte-size helper computes `S(n) = ⌊bit_length(n) / 8⌋`, where
the modelled bit length is the true one (`2^(bits n − 1) ≤ n < 2^(bits n)`
for positive `n`), and every modulus of bit length at least 32 has a
strictly positive byte size. -/
theorem size_in_bytes_spec (n : Nat) (hn : 0 < n) :
    2 ^ (bits n - 1) ≤ n ∧ n < 2 ^ bits n ∧ sizeInBytes n = bits n / 8 ∧
      (32 ≤ bits n → 0 < sizeInBytes n) :=
  ⟨bits_le n hn, bits_lt n, rfl, fun h32 => by unfold sizeInBytes; omega⟩

theorem size_in_bytes_spec_witness :
    2 ^ (bits 2523461377 - 1) ≤ 2523461377 ∧ 0 < sizeInBytes 2523461377 :=
  ⟨(size_in_bytes_spec 2523461377 (by decide)).1,
    (size_in_bytes_spec 2523461377 (by decide)).2.2.2 (by decide)⟩

/-- C5 (counterexample): the spec's concrete scenario gives the wrong
numbers: for the reference modulus `n = 2523461377` (which has 32 bits) the
helper returns `S(n) = 4`, not 3. -/
theorem reference_size_not_three : ¬ sizeInBytes 2523461377 = 3 := by decide

/-- C5 (amended): for the reference key with modulus `n = 2523461377`,
public exponent 65537 and private exponent 343637873: `S(n) = 4` bytes, so
ciphertext blocks are 5 bytes wide and plaintext is read in chunks of at
most 3 bytes, and encrypting a known byte sequence then decrypting the
result with `(d, n)` reproduces the original bytes exactly. -/
theorem reference_scenario :
    sizeInBytes 2523461377 = 4 ∧
    (encrypt_blocks 65537 2523461377
        [76, 111, 114, 101, 109, 32, 105, 112, 115, 117, 109]).map List.length =
      [5, 5, 5, 5] ∧
    (chunksOf (sizeInBytes 2523461377 - 1)
        [76, 111, 114, 101, 109, 32, 105, 112, 115, 117, 109]).map List.length =
      [3, 3, 3, 2] ∧
    decrypt_file 343637873 2523461377
        (encrypt_file 65537 2523461377
          [76, 111, 114, 101, 109, 32, 105, 112, 115, 117, 109]) =
      [76, 111, 114, 101, 109, 32, 105, 112, 115, 117, 109] := by
  decide

/-- C6: for every modulus with `S(n) ≥ 1`, the unsigned integer decoded
from a full `(S(n) − 1)`-byte little-endian buffer is strictly less than
`n`, so the plaintext value fed to modular exponentiation never wraps
around the modulus. -/
theorem full_buffer_lt_modulus (n : Nat) (c : List Nat)
    (hS : 1 ≤ sizeInBytes n)
    (hlen : c.length = sizeInBytes n - 1)
    (hb : ∀ b ∈ c, b < 256) :
    fromBytesLE c < n := by
  have hn : 0 < n := sizeInBytes_pos_modulus n hS
  have h1 := fromBytesLE_lt c hb
  rw [hlen] at h1
  have hsz : sizeInBytes n = bits n / 8 := rfl
  calc fromBytesLE c < 256 ^ (sizeInBytes n - 1) := h1
    _ = 2 ^ (8 * (sizeInBytes n - 1)) := by
        rw [show (256 : Nat) = 2 ^ 8 by norm_num, ← pow_mul]
    _ ≤ 2 ^ (bits n - 1) := Nat.pow_le_pow_right (by omega) (by omega)
    _ ≤ n := bits_le n hn

theorem full_buffer_lt_modulus_witness :
    fromBytesLE [255, 255, 255] < 2523461377 :=
  full_buffer_lt_modulus 2523461377 [255, 255, 255] (by decide) (by decide) (by decide)

/-- C7: with `S(n) ≥ 1` and an input whose length is an exact nonzero
multiple of `R = S(n) − 1`, `encrypt_file` emits exactly `len / R` blocks,
each full-width; and in general (any input) the loop emits
`⌈len / R⌉` blocks — so the first zero-byte read terminates the loop with
no spurious empty final block, while a short-but-nonzero final read still
produces one final block. -/
theorem exact_multiple_block_count (e n : Nat) (input : List Nat) (k : Nat)
    (hS : 1 ≤ sizeInBytes n)
    (hlen : input.length = k * (sizeInBytes n - 1))
    (hpos : 0 < input.length) :
    (encrypt_blocks e n input).length = input.length / (sizeInBytes n - 1) ∧
    (∀ bl ∈ encrypt_blocks e n input, bl.length = sizeInBytes n + 1) ∧
    ∀ input2 : List Nat,
      (encrypt_blocks e n input2).length =
        (input2.length + (sizeInBytes n - 1) - 1) / (sizeInBytes n - 1) := by
  have hR : 0 < sizeInBytes n - 1 := by
    rcases Nat.eq_zero_or_pos (sizeInBytes n - 1) with h0 | h1
    · rw [h0, Nat.mul_zero] at hlen; omega
    · exact h1
  refine ⟨?_, ?_, ?_⟩
  · rw [encrypt_blocks_eq_map, List.length_map, chunksOf_length _ hR, hlen]
    have h1 : k * (sizeInBytes n - 1) + (sizeInBytes n - 1) - 1 =
        sizeInBytes n - 1 - 1 + (sizeInBytes n - 1) * k := by
      rw [Nat.mul_comm]
      omega
    rw [h1, Nat.add_mul_div_left _ _ hR, Nat.div_eq_of_lt (by omega),
      Nat.mul_div_cancel _ hR]
    omega
  · intro bl hbl
    rw [encrypt_blocks_eq_map] at hbl
    rcases List.mem_map.mp hbl with ⟨c, _, rfl⟩
    exact encBlock_length e n _ c hS
  · intro input2
    rw [encrypt_blocks_eq_map, List.length_map, chunksOf_length _ hR]

theorem exact_multiple_block_count_witness :
    (encrypt_blocks 65537 2523461377 [1, 2, 3, 4, 5, 6]).length =
      ([1, 2, 3, 4, 5, 6] : List Nat).length / (sizeInBytes 2523461377 - 1) :=
  (exact_multiple_block_count 65537 2523461377 [1, 2, 3, 4, 5, 6] 2
    (by decide) (by decide) (by decide)).1

/-- C8: for every private key and input, `decrypt_file` writes per
ciphertext block exactly the minimal little-endian encoding of the
recovered integer `encrypted^d mod n` — no padding — and the byte count
written per chunk equals the true byte length of that integer. -/
theorem decrypt_writes_exact (d n : Nat) (input : List Nat) :
    decrypt_blocks d n input =
      (chunksOf (sizeInBytes n + 1) input).map
        (fun c => toBytesLE (modpow (fromBytesLE c) d n)) ∧
    (decrypt_blocks d n input).map List.length =
      (chunksOf (sizeInBytes n + 1) input).map
        (fun c => byteLen (modpow (fromBytesLE c) d n)) := by
  have hfun : decChunk d n (sizeInBytes n + 1) =
      fun c => toBytesLE (modpow (fromBytesLE c) d n) := by
    funext c
    unfold decChunk
    rw [fromBytesLE_append_zeros]
  constructor
  · rw [decrypt_blocks_eq_map, hfun]
  · rw [decrypt_blocks_eq_map, hfun, List.map_map]
    have hcomp : (List.length ∘ fun c => toBytesLE (modpow (fromBytesLE c) d n)) =
        fun c => byteLen (modpow (fromBytesLE c) d n) := by
      funext c
      simp [Function.comp, toBytesLE_length_eq]
    rw [hcomp]

/-- C9: the modular-exponentiation primitive used by `KeyPair::is_valid`
(`crate::math::mod_pow`, modelled from the spec as plain
`base ^ exponent % modulus`) and the square-and-multiply primitive used by
the block-cipher engine (`BigUint::modpow`) compute the same function. -/
theorem mod_pow_eq_modpow (b e n : Nat) : mod_pow b e n = modpow b e n := by
  rw [modpow_eq]
  rfl

/-- C10: every value produced by the engine's modular exponentiation is
strictly below the modulus, and (given `S(n) ≥ 1`) its little-endian
encoding has at most `S(n) + 1` bytes, so the padding-size subtraction
`max_bytes_write - destiny_bytes.len()` in `encrypt_file` never
underflows. -/
theorem encrypted_fits_block (e n m : Nat) (hS : 1 ≤ sizeInBytes n) :
    modpow m e n < n ∧ (toBytesLE (modpow m e n)).length ≤ sizeInBytes n + 1 := by
  have hn : 0 < n := sizeInBytes_pos_modulus n hS
  have h1 := modpow_lt m e n hn
  exact ⟨h1, toBytesLE_length_le _ _ (by omega) (lt_trans h1 (modulus_lt_pow n))⟩

theorem encrypted_fits_block_witness :
    modpow 5 65537 2523461377 < 2523461377 ∧
    (toBytesLE (modpow 5 65537 2523461377)).length ≤ sizeInBytes 2523461377 + 1 :=
  encrypted_fits_block 65537 2523461377 5 (by decide)

end RsaCrypt
